import Mathlib

/-!
Verification of the poker rules engine and generic phase orchestrator of the
LLMArena repository against its natural-language specification.

The definitions below are a shallow embedding of the Python source:
  * `src/llm_arena/games/poker/hand_eval.py`  (card / hand evaluator)
  * `src/llm_arena/games/poker/tools.py`      (betting actions)
  * `src/llm_arena/games/poker/game.py`       (hand state machine)
  * `src/llm_arena/core/game.py`              (orchestrator loop)

Python cards are two-character strings such as "Ah"; we model a card as a
pair of characters (rank char, suit char).  Python ints are modelled as
`Nat` where the source values are provably non-negative, and as `Int`
where signed arithmetic matters (comparison results, raise increments).
-/

namespace LLMArena

/-- A card: rank character paired with suit character (Python string "Ah" ↦ ('A','h')). -/
abbrev Card := Char × Char

/-- RANK_CHARS = "23456789TJQKA" from hand_eval.py. -/
def RANK_CHARS : List Char :=
  ['2', '3', '4', '5', '6', '7', '8', '9', 'T', 'J', 'Q', 'K', 'A']

/-- SUIT_CHARS = "cdhs". -/
def SUIT_CHARS : List Char := ['c', 'd', 'h', 's']

/-- `card_rank`: numeric rank 0-12 of a card, the index of its rank character
in RANK_CHARS (RANK_MAP in the source; a character outside the table has no
entry in RANK_MAP, here `indexOf` returns 13). -/
def card_rank (card : Card) : Nat := RANK_CHARS.indexOf card.1

/-- `card_suit`: the suit character of a card. -/
def card_suit (card : Card) : Char := card.2

-- Hand ranking constants (higher is better), as in hand_eval.py.

def HAND_HIGH_CARD : Nat := 0
def HAND_ONE_PAIR : Nat := 1
def HAND_TWO_PAIR : Nat := 2
def HAND_THREE_OF_A_KIND : Nat := 3
def HAND_STRAIGHT : Nat := 4
def HAND_FLUSH : Nat := 5
def HAND_FULL_HOUSE : Nat := 6
def HAND_FOUR_OF_A_KIND : Nat := 7
def HAND_STRAIGHT_FLUSH : Nat := 8
def HAND_ROYAL_FLUSH : Nat := 9

/-- A hand score: (rank category, tie-break vector), the `(rank, tiebreakers)`
pair returned by `_evaluate_five`. -/
abbrev HandScore := Nat × List Nat

/-- `ranks = sorted([card_rank(c) for c in cards], reverse=True)`. -/
def ranksOf (cards : List Card) : List Nat :=
  List.insertionSort (· ≥ ·) (cards.map card_rank)

/-- `suits = [card_suit(c) for c in cards]`. -/
def suitsOf (cards : List Card) : List Char := cards.map card_suit

/-- `is_flush = len(set(suits)) == 1` (cardinality of the set of suits). -/
def isFlush (cards : List Card) : Bool := (suitsOf cards).dedup.length == 1

/-- `unique_ranks = sorted(set(ranks), reverse=True)`. -/
def uniqueRanks (cards : List Card) : List Nat :=
  List.insertionSort (· ≥ ·) (ranksOf cards).dedup

/-- The straight detection of `_evaluate_five`: returns `(is_straight, straight_high)`.
`unique_ranks[0] - unique_ranks[4]` is a difference of Python ints; since
`unique_ranks` is sorted descending the `Nat` subtraction here agrees with it. -/
def straightInfo (cards : List Card) : Bool × Nat :=
  let unique_ranks := uniqueRanks cards
  if unique_ranks.length = 5 then
    if unique_ranks.getD 0 0 - unique_ranks.getD 4 0 = 4 then
      (true, unique_ranks.getD 0 0)
    else if unique_ranks = [12, 3, 2, 1, 0] then
      (true, 3)   -- wheel A-2-3-4-5: 5-high straight
    else (false, 0)
  else (false, 0)

/-- The sort key order of `groups = sorted(freq.items(), key=lambda x: (x[1], x[0]), reverse=True)`:
entries are (rank, count) pairs ordered by count descending then rank descending. -/
def groupGE (a b : Nat × Nat) : Prop :=
  b.2 < a.2 ∨ (a.2 = b.2 ∧ b.1 ≤ a.1)

instance : DecidableRel groupGE := fun a b => by
  unfold groupGE; exact inferInstance

instance : IsTotal (Nat × Nat) groupGE := by
  constructor
  intro a b
  unfold groupGE
  omega

instance : IsTrans (Nat × Nat) groupGE := by
  constructor
  intro a b c hab hbc
  unfold groupGE at *
  omega

instance : IsAntisymm (Nat × Nat) groupGE := by
  constructor
  intro a b hab hba
  unfold groupGE at *
  have h1 : a.1 = b.1 := by omega
  have h2 : a.2 = b.2 := by omega
  exact Prod.ext h1 h2

/-- `freq = Counter(ranks); groups = sorted(freq.items(), key=(count, rank), reverse=True)`.
Counter items are the distinct ranks paired with their multiplicities; the sort
key is injective on them, so the sorted list is canonical. -/
def groupsOf (cards : List Card) : List (Nat × Nat) :=
  let ranks := ranksOf cards
  List.insertionSort groupGE (ranks.dedup.map fun r => (r, ranks.count r))

/-- `freq_pattern = tuple(g[1] for g in groups)`. -/
def freqPattern (cards : List Card) : List Nat :=
  (groupsOf cards).map Prod.snd

/-- `_evaluate_five(cards)`: evaluate exactly 5 cards to (rank, tiebreakers). -/
def _evaluate_five (cards : List Card) : HandScore :=
  let ranks := ranksOf cards
  let is_flush := isFlush cards
  let is_straight := (straightInfo cards).1
  let straight_high := (straightInfo cards).2
  let groups := groupsOf cards
  let freq_pattern := freqPattern cards
  if is_straight && is_flush then
    if straight_high == 12 then (HAND_ROYAL_FLUSH, [straight_high])
    else (HAND_STRAIGHT_FLUSH, [straight_high])
  else if freq_pattern = [4, 1] then
    (HAND_FOUR_OF_A_KIND, [(groups.getD 0 (0, 0)).1, (groups.getD 1 (0, 0)).1])
  else if freq_pattern = [3, 2] then
    (HAND_FULL_HOUSE, [(groups.getD 0 (0, 0)).1, (groups.getD 1 (0, 0)).1])
  else if is_flush then
    (HAND_FLUSH, ranks)
  else if is_straight then
    (HAND_STRAIGHT, [straight_high])
  else if freq_pattern = [3, 1, 1] then
    (HAND_THREE_OF_A_KIND,
      (groups.getD 0 (0, 0)).1 ::
        List.insertionSort (· ≥ ·) [(groups.getD 1 (0, 0)).1, (groups.getD 2 (0, 0)).1])
  else if freq_pattern = [2, 2, 1] then
    (HAND_TWO_PAIR,
      [max (groups.getD 0 (0, 0)).1 (groups.getD 1 (0, 0)).1,
       min (groups.getD 0 (0, 0)).1 (groups.getD 1 (0, 0)).1,
       (groups.getD 2 (0, 0)).1])
  else if freq_pattern = [2, 1, 1, 1] then
    (HAND_ONE_PAIR,
      (groups.getD 0 (0, 0)).1 ::
        List.insertionSort (· ≥ ·)
          [(groups.getD 1 (0, 0)).1, (groups.getD 2 (0, 0)).1, (groups.getD 3 (0, 0)).1])
  else
    (HAND_HIGH_CARD, ranks)

example : _evaluate_five [('A','h'), ('2','d'), ('3','c'), ('4','s'), ('5','h')] =
    (HAND_STRAIGHT, [3]) := by decide

example : _evaluate_five [('2','c'), ('2','d'), ('2','h'), ('2','s'), ('K','d')] =
    (HAND_FOUR_OF_A_KIND, [0, 11]) := by decide

/-- The tie-break loop of `_compare_single`: walk the zipped tiebreaker lists
and return the first non-zero difference (`av - bv` of Python ints), else 0. -/
def lexCmp : List Nat → List Nat → Int
  | a :: as_, b :: bs =>
      if a ≠ b then (a : Int) - (b : Int) else lexCmp as_ bs
  | _, _ => 0

/-- `_compare_single(a, b)`: positive iff a beats b, negative iff b beats a, 0 on tie. -/
def _compare_single (a b : HandScore) : Int :=
  if a.1 ≠ b.1 then (a.1 : Int) - (b.1 : Int) else lexCmp a.2 b.2

/-- The scan loop of `compare_hands`: `best` is the hand at `best_idx[0]`,
`acc` is the accumulated `best_idx`, `i` the index of the head of the
remaining list. -/
def compareScan : List HandScore → HandScore → List Nat → Nat → List Nat
  | [], _, acc, _ => acc
  | h :: t, best, acc, i =>
      let c := _compare_single h best
      if c > 0 then compareScan t h [i] (i + 1)
      else if c = 0 then compareScan t best (acc ++ [i]) (i + 1)
      else compareScan t best acc (i + 1)

/-- `compare_hands(hands)`: indices of the winner(s); ties possible. -/
def compare_hands (hands : List HandScore) : List Nat :=
  match hands with
  | [] => []
  | h :: t => compareScan t h [0] 1

/-- `itertools.combinations(l, k)`: all length-`k` subsequences of `l`
(in lexicographic order of positions). -/
def combinations : List α → Nat → List (List α)
  | _, 0 => [[]]
  | [], _ + 1 => []
  | x :: xs, k + 1 =>
      (combinations xs k).map (x :: ·) ++ combinations xs (k + 1)

/-- The best-so-far fold of `evaluate_hand`: starting from `best = None`,
replace the best only on a strictly greater score. -/
def bestOf : Option HandScore → List HandScore → Option HandScore
  | best, [] => best
  | none, r :: rest => bestOf (some r) rest
  | some b, r :: rest =>
      if _compare_single r b > 0 then bestOf (some r) rest else bestOf (some b) rest

/-- `evaluate_hand(hole_cards, community_cards)`: best 5-card score among all
5-card combinations of the combined cards; `ValueError` on fewer than 5 cards
is modelled as `Except.error`.  The source `assert best is not None` is the
second (provably unreachable) error branch. -/
def evaluate_hand (hole_cards community_cards : List Card) :
    Except String HandScore :=
  let all_cards := hole_cards ++ community_cards
  if all_cards.length < 5 then
    Except.error ("Need at least 5 cards to evaluate, got " ++ toString all_cards.length)
  else
    match bestOf none ((combinations all_cards 5).map _evaluate_five) with
    | some best => Except.ok best
    | none => Except.error "assertion failed: best is not None"

example : evaluate_hand [('A','h'), ('2','d')]
    [('3','c'), ('4','s'), ('5','h'), ('9','d'), ('K','d')] =
    Except.ok (HAND_STRAIGHT, [3]) := by rfl

example : evaluate_hand [('2','c'), ('2','d')]
    [('2','h'), ('2','s'), ('5','c'), ('9','d'), ('K','d')] =
    Except.ok (HAND_FOUR_OF_A_KIND, [0, 11]) := by rfl

example : compare_hands [(1, [2, 3]), (1, [2, 3]), (1, [2, 3])] = [0, 1, 2] := by decide

/-! ### Order theory of `_compare_single`

`_compare_single` compares the zip of the two tie-break vectors, so on
arbitrary pairs it is not transitive; on scores whose tie-break length is
determined by the category (which is the case for every output of
`_evaluate_five` on 5 cards) it is a total preorder whose ties are
equalities. -/

theorem lexCmp_self (a : List Nat) : lexCmp a a = 0 := by
  induction a with
  | nil => rfl
  | cons x xs ih => simp [lexCmp, ih]

theorem lexCmp_neg (a : List Nat) : ∀ b, lexCmp a b = - lexCmp b a := by
  induction a with
  | nil => intro b; cases b <;> simp [lexCmp]
  | cons x xs ih =>
      intro b
      cases b with
      | nil => simp [lexCmp]
      | cons y ys =>
          by_cases h : x = y
          · subst h; simpa [lexCmp] using ih ys
          · have h' : ¬ y = x := fun hh => h hh.symm
            simp only [lexCmp, ne_eq, h, h', not_false_eq_true, if_true]
            omega

theorem lexCmp_eq_zero :
    ∀ {a b : List Nat}, a.length = b.length → (lexCmp a b = 0 ↔ a = b) := by
  intro a
  induction a with
  | nil =>
      intro b h
      cases b with
      | nil => simp [lexCmp]
      | cons y ys => simp at h
  | cons x xs ih =>
      intro b h
      cases b with
      | nil => simp at h
      | cons y ys =>
          have hlen : xs.length = ys.length := by simpa using h
          by_cases hxy : x = y
          · subst hxy
            simp [lexCmp, ih hlen]
          · constructor
            · intro h0
              exfalso
              simp only [lexCmp, ne_eq, hxy, not_false_eq_true, if_true] at h0
              omega
            · intro h0
              exact absurd (List.cons.injEq .. ▸ h0).1 hxy

theorem lexCmp_trans_lt :
    ∀ {a b c : List Nat}, a.length = b.length → b.length = c.length →
      lexCmp a b < 0 → lexCmp b c < 0 → lexCmp a c < 0 := by
  intro a
  induction a with
  | nil =>
      intro b c hab _ h1 _
      cases b with
      | nil => simp [lexCmp] at h1
      | cons y ys => simp at hab
  | cons x xs ih =>
      intro b c hab hbc h1 h2
      cases b with
      | nil => simp at hab
      | cons y ys =>
          cases c with
          | nil => simp at hbc
          | cons z zs =>
              have hab' : xs.length = ys.length := by simpa using hab
              have hbc' : ys.length = zs.length := by simpa using hbc
              by_cases hxy : x = y
              · subst hxy
                by_cases hyz : x = z
                · subst hyz
                  simp only [lexCmp, ne_eq, not_true_eq_false, if_false, ite_self] at h1 h2 ⊢
                  simpa using ih hab' hbc' (by simpa using h1) (by simpa using h2)
                · simp only [lexCmp, ne_eq, hyz, not_false_eq_true, if_true] at h2 ⊢
                  exact h2
              · have hxylt : (x : Int) - y < 0 := by
                  simpa [lexCmp, hxy] using h1
                by_cases hyz : y = z
                · subst hyz
                  simp only [lexCmp, ne_eq, hxy, not_false_eq_true, if_true]
                  exact hxylt
                · have hyzlt : (y : Int) - z < 0 := by
                    simpa [lexCmp, hyz] using h2
                  have hxz : ¬ x = z := by omega
                  simp only [lexCmp, ne_eq, hxz, not_false_eq_true, if_true]
                  omega

/-- The length of the tie-break vector produced by `_evaluate_five` on 5 cards,
as a function of the hand category. -/
def tbLen : Nat → Nat
  | 0 => 5
  | 1 => 4
  | 2 => 3
  | 3 => 3
  | 4 => 1
  | 5 => 5
  | 6 => 2
  | 7 => 2
  | 8 => 1
  | 9 => 1
  | _ => 0

/-- A score is well-behaved when its tie-break length is the one the
evaluator produces for its category. -/
def WBScore (x : HandScore) : Prop := x.2.length = tbLen x.1

instance (x : HandScore) : Decidable (WBScore x) := by
  unfold WBScore; exact inferInstance

theorem ranksOf_length (cards : List Card) : (ranksOf cards).length = cards.length := by
  simp [ranksOf, List.length_insertionSort]

/-- Every score of a 5-card hand is well-behaved. -/
theorem _evaluate_five_wb {cards : List Card} (h5 : cards.length = 5) :
    WBScore (_evaluate_five cards) := by
  unfold _evaluate_five
  have hr : (ranksOf cards).length = 5 := by rw [ranksOf_length, h5]
  dsimp only
  split_ifs <;>
    simp only [WBScore, tbLen, HAND_ROYAL_FLUSH, HAND_STRAIGHT_FLUSH, HAND_FOUR_OF_A_KIND,
      HAND_FULL_HOUSE, HAND_FLUSH, HAND_STRAIGHT, HAND_THREE_OF_A_KIND, HAND_TWO_PAIR,
      HAND_ONE_PAIR, HAND_HIGH_CARD, List.length_insertionSort, List.length_cons,
      List.length_nil, hr]

theorem _compare_single_self (a : HandScore) : _compare_single a a = 0 := by
  simp [_compare_single, lexCmp_self]

theorem _compare_single_neg (a b : HandScore) :
    _compare_single a b = - _compare_single b a := by
  by_cases h : a.1 = b.1
  · simp only [_compare_single]
    rw [if_neg (show ¬ a.1 ≠ b.1 by simpa using h),
      if_neg (show ¬ b.1 ≠ a.1 by simpa using h.symm)]
    exact lexCmp_neg a.2 b.2
  · have h' : ¬ b.1 = a.1 := fun hh => h hh.symm
    simp only [_compare_single, ne_eq, h, h', not_false_eq_true, if_true]
    omega

theorem _compare_single_eq_zero {a b : HandScore}
    (ha : WBScore a) (hb : WBScore b) :
    _compare_single a b = 0 ↔ a = b := by
  by_cases h : a.1 = b.1
  · have hlen : a.2.length = b.2.length := by
      rw [ha, hb, h]
    constructor
    · intro h0
      simp only [_compare_single, ne_eq, h, not_true_eq_false, if_false] at h0
      exact Prod.ext h ((lexCmp_eq_zero hlen).mp h0)
    · intro h0; subst h0; exact _compare_single_self a
  · constructor
    · intro h0
      exfalso
      simp only [_compare_single, ne_eq, h, not_false_eq_true, if_true] at h0
      omega
    · intro h0; subst h0; exact absurd rfl h

theorem _compare_single_trans_lt {a b c : HandScore}
    (ha : WBScore a) (hb : WBScore b) (hc : WBScore c) :
    _compare_single a b < 0 → _compare_single b c < 0 → _compare_single a c < 0 := by
  intro h1 h2
  by_cases hab : a.1 = b.1
  · by_cases hbc : b.1 = c.1
    · have hac : a.1 = c.1 := hab.trans hbc
      simp only [_compare_single, ne_eq, hab, hbc, hac, not_true_eq_false, if_false] at h1 h2 ⊢
      exact lexCmp_trans_lt (by rw [ha, hb, hab]) (by rw [hb, hc, hbc]) h1 h2
    · have h2' : (b.1 : Int) - c.1 < 0 := by
        simpa [_compare_single, hbc] using h2
      have hac : ¬ a.1 = c.1 := by omega
      simp only [_compare_single, ne_eq, hac, not_false_eq_true, if_true]
      omega
  · have h1' : (a.1 : Int) - b.1 < 0 := by
      simpa [_compare_single, hab] using h1
    by_cases hbc : b.1 = c.1
    · have hac : ¬ a.1 = c.1 := by omega
      simp only [_compare_single, ne_eq, hac, not_false_eq_true, if_true]
      omega
    · have h2' : (b.1 : Int) - c.1 < 0 := by
        simpa [_compare_single, hbc] using h2
      have hac : ¬ a.1 = c.1 := by omega
      simp only [_compare_single, ne_eq, hac, not_false_eq_true, if_true]
      omega

theorem _compare_single_trans_le {a b c : HandScore}
    (ha : WBScore a) (hb : WBScore b) (hc : WBScore c) :
    _compare_single a b ≤ 0 → _compare_single b c ≤ 0 → _compare_single a c ≤ 0 := by
  intro h1 h2
  rcases lt_or_eq_of_le h1 with h1' | h1'
  · rcases lt_or_eq_of_le h2 with h2' | h2'
    · exact le_of_lt (_compare_single_trans_lt ha hb hc h1' h2')
    · have : b = c := (_compare_single_eq_zero hb hc).mp h2'
      subst this
      exact le_of_lt h1'
  · have : a = b := (_compare_single_eq_zero ha hb).mp h1'
    subst this
    exact h2

/-! ### Correctness of `evaluate_hand` -/

/-- Membership in `combinations l k` is exactly being a length-`k` subsequence. -/
theorem mem_combinations {α : Type _} :
    ∀ (l : List α) (k : Nat) (c : List α),
      c ∈ combinations l k ↔ List.Sublist c l ∧ c.length = k := by
  intro l
  induction l with
  | nil =>
      intro k c
      cases k with
      | zero =>
          simp only [combinations, List.mem_singleton]
          constructor
          · rintro rfl; exact ⟨List.Sublist.refl _, rfl⟩
          · rintro ⟨hs, hl⟩
            exact List.eq_nil_of_length_eq_zero hl
      | succ k =>
          simp only [combinations, List.not_mem_nil, false_iff, not_and]
          intro hs
          have : c = [] := List.sublist_nil.mp hs
          subst this
          simp
  | cons x xs ih =>
      intro k c
      cases k with
      | zero =>
          simp only [combinations, List.mem_singleton]
          constructor
          · rintro rfl; exact ⟨List.nil_sublist _, rfl⟩
          · rintro ⟨hs, hl⟩
            exact List.eq_nil_of_length_eq_zero hl
      | succ k =>
          simp only [combinations, List.mem_append, List.mem_map]
          rw [List.sublist_cons_iff]
          constructor
          · rintro (⟨c', hc', rfl⟩ | h)
            · rcases (ih k c').mp hc' with ⟨hs, hl⟩
              exact ⟨Or.inr ⟨c', rfl, hs⟩, by simp [hl]⟩
            · rcases (ih (k + 1) c).mp h with ⟨hs, hl⟩
              exact ⟨Or.inl hs, hl⟩
          · rintro ⟨h1 | ⟨r, rfl, hr⟩, hl⟩
            · exact Or.inr ((ih (k + 1) c).mpr ⟨h1, hl⟩)
            · refine Or.inl ⟨r, (ih k r).mpr ⟨hr, ?_⟩, rfl⟩
              simpa using hl

/-- The best-so-far fold returns a greatest element (under `_compare_single`)
among the seed and the list, provided every score involved is well-behaved. -/
theorem bestOf_spec :
    ∀ (l : List HandScore) (b : HandScore),
      (∀ x ∈ l, WBScore x) → WBScore b →
      ∃ g, bestOf (some b) l = some g ∧ WBScore g ∧ (g = b ∨ g ∈ l) ∧
        _compare_single b g ≤ 0 ∧ ∀ y ∈ l, _compare_single y g ≤ 0 := by
  intro l
  induction l with
  | nil =>
      intro b _ hb
      refine ⟨b, rfl, hb, Or.inl rfl, ?_, by simp⟩
      simp [_compare_single_self]
  | cons r rest ih =>
      intro b hl hb
      have hr : WBScore r := hl r (List.mem_cons_self r rest)
      have hrest : ∀ x ∈ rest, WBScore x := fun x hx => hl x (List.mem_cons_of_mem r hx)
      by_cases hc : _compare_single r b > 0
      · have hstep : bestOf (some b) (r :: rest) = bestOf (some r) rest := by
          simp [bestOf, hc]
        rcases ih r hrest hr with ⟨g, hg, hwg, hmem, hrg, hall⟩
        refine ⟨g, hstep ▸ hg, hwg, ?_, ?_, ?_⟩
        · rcases hmem with rfl | h
          · exact Or.inr (List.mem_cons_self g rest)
          · exact Or.inr (List.mem_cons_of_mem r h)
        · have hbr : _compare_single b r < 0 := by
            have := _compare_single_neg b r
            omega
          exact _compare_single_trans_le hb hr hwg (le_of_lt hbr) hrg
        · intro y hy
          rcases List.mem_cons.mp hy with rfl | hy'
          · exact hrg
          · exact hall y hy'
      · have hc' : _compare_single r b ≤ 0 := by omega
        have hstep : bestOf (some b) (r :: rest) = bestOf (some b) rest := by
          simp [bestOf, hc]
        rcases ih b hrest hb with ⟨g, hg, hwg, hmem, hbg, hall⟩
        refine ⟨g, hstep ▸ hg, hwg, ?_, hbg, ?_⟩
        · rcases hmem with rfl | h
          · exact Or.inl rfl
          · exact Or.inr (List.mem_cons_of_mem r h)
        · intro y hy
          rcases List.mem_cons.mp hy with rfl | hy'
          · exact _compare_single_trans_le hr hb hwg hc' hbg
          · exact hall y hy'

/-- Shared correctness lemma for `evaluate_hand`: on at least 5 cards it
returns the score of some 5-card subsequence of the combined cards, and that
score dominates the score of every 5-card subsequence. -/
theorem evaluate_hand_spec_aux (hole community : List Card)
    (h5 : ¬ (hole ++ community).length < 5) :
    ∃ g, evaluate_hand hole community = Except.ok g ∧
      (∃ sub, List.Sublist sub (hole ++ community) ∧ sub.length = 5 ∧
        g = _evaluate_five sub) ∧
      ∀ sub, List.Sublist sub (hole ++ community) → sub.length = 5 →
        _compare_single (_evaluate_five sub) g ≤ 0 := by
  set all := hole ++ community with hall
  have htake : (all.take 5) ∈ combinations all 5 := by
    rw [mem_combinations]
    exact ⟨List.take_sublist 5 all, by simp [List.length_take]; omega⟩
  have hwb : ∀ x ∈ (combinations all 5).map _evaluate_five, WBScore x := by
    intro x hx
    rcases List.mem_map.mp hx with ⟨c, hc, rfl⟩
    exact _evaluate_five_wb ((mem_combinations all 5 c).mp hc).2
  rcases hcomb : (combinations all 5).map _evaluate_five with _ | ⟨s, rest⟩
  · exfalso
    have : _evaluate_five (all.take 5) ∈ (combinations all 5).map _evaluate_five :=
      List.mem_map_of_mem _evaluate_five htake
    rw [hcomb] at this
    exact List.not_mem_nil _ this
  · have hs : WBScore s := by
      apply hwb; rw [hcomb]; exact List.mem_cons_self s rest
    have hrest : ∀ x ∈ rest, WBScore x := by
      intro x hx; apply hwb; rw [hcomb]; exact List.mem_cons_of_mem s hx
    rcases bestOf_spec rest s hrest hs with ⟨g, hg, hwg, hmem, hsg, hall2⟩
    have hbo : bestOf none ((combinations all 5).map _evaluate_five) = some g := by
      rw [hcomb]
      simpa [bestOf] using hg
    refine ⟨g, ?_, ?_, ?_⟩
    · unfold evaluate_hand
      rw [if_neg (hall ▸ h5)]
      rw [hall] at hbo
      simp [hbo]
    · have hgmem : g ∈ (combinations all 5).map _evaluate_five := by
        rw [hcomb]
        rcases hmem with rfl | h
        · exact List.mem_cons_self g rest
        · exact List.mem_cons_of_mem s h
      rcases List.mem_map.mp hgmem with ⟨c, hc, hceq⟩
      rcases (mem_combinations all 5 c).mp hc with ⟨hsub, hlen⟩
      exact ⟨c, hsub, hlen, hceq.symm⟩
    · intro sub hsub hlen
      have hsmem : _evaluate_five sub ∈ (combinations all 5).map _evaluate_five :=
        List.mem_map_of_mem _evaluate_five ((mem_combinations all 5 sub).mpr ⟨hsub, hlen⟩)
      rw [hcomb] at hsmem
      rcases List.mem_cons.mp hsmem with heq | hmem'
      · rw [heq]; exact hsg
      · exact hall2 _ hmem'

/-- `WBScore` holds for every successful output of `evaluate_hand`. -/
theorem evaluate_hand_ok_wb {hole community : List Card} {g : HandScore}
    (he : evaluate_hand hole community = Except.ok g) : WBScore g := by
  by_cases h5 : (hole ++ community).length < 5
  · exfalso
    unfold evaluate_hand at he
    rw [if_pos h5] at he
    simp at he
  · rcases evaluate_hand_spec_aux hole community h5 with ⟨g', hok, ⟨sub, _, hlen, hg⟩, _⟩
    have : g' = g := by
      have h2 := hok.symm.trans he
      exact Except.ok.inj h2
    rw [← this, hg]
    exact _evaluate_five_wb hlen

/-! ### Permutation invariance of the evaluator -/

theorem ranksOf_perm {c1 c2 : List Card} (h : c1.Perm c2) : ranksOf c1 = ranksOf c2 := by
  unfold ranksOf
  have hp : (List.insertionSort (· ≥ ·) (c1.map card_rank)).Perm
      (List.insertionSort (· ≥ ·) (c2.map card_rank)) :=
    ((List.perm_insertionSort _ _).trans (h.map card_rank)).trans
      (List.perm_insertionSort _ _).symm
  have hs1 : (List.insertionSort (· ≥ ·) (c1.map card_rank)).Sorted (· ≥ ·) :=
    List.sorted_insertionSort _ _
  have hs2 : (List.insertionSort (· ≥ ·) (c2.map card_rank)).Sorted (· ≥ ·) :=
    List.sorted_insertionSort _ _
  exact List.eq_of_perm_of_sorted hp hs1 hs2

theorem isFlush_perm {c1 c2 : List Card} (h : c1.Perm c2) : isFlush c1 = isFlush c2 := by
  unfold isFlush suitsOf
  rw [((h.map card_suit).dedup).length_eq]

/-- `_evaluate_five` depends only on the multiset of its cards. -/
theorem _evaluate_five_perm {c1 c2 : List Card} (h : c1.Perm c2) :
    _evaluate_five c1 = _evaluate_five c2 := by
  have hr : ranksOf c1 = ranksOf c2 := ranksOf_perm h
  have hf : isFlush c1 = isFlush c2 := isFlush_perm h
  unfold _evaluate_five freqPattern groupsOf straightInfo uniqueRanks
  rw [hr, hf]

/-- C2: for every pair (holeCards, communityCards), if the combined card count
is below 5 then `evaluate_hand` fails with the insufficient-cards error, and
otherwise it returns the maximum — under the category-then-lexicographic
tie-break order decided by `_compare_single` — over the independent
`_evaluate_five` scores of every 5-card subset of the combined cards. -/
theorem claim_C2 (hole community : List Card) :
    if (hole ++ community).length < 5 then
      evaluate_hand hole community =
        Except.error ("Need at least 5 cards to evaluate, got " ++
          toString (hole ++ community).length)
    else ∃ g, evaluate_hand hole community = Except.ok g ∧
      (∃ sub, List.Sublist sub (hole ++ community) ∧ sub.length = 5 ∧
        g = _evaluate_five sub) ∧
      ∀ sub, List.Sublist sub (hole ++ community) → sub.length = 5 →
        _compare_single (_evaluate_five sub) g ≤ 0 := by
  by_cases h5 : (hole ++ community).length < 5
  · rw [if_pos h5]
    unfold evaluate_hand
    rw [if_pos h5]
  · rw [if_neg h5]
    exact evaluate_hand_spec_aux hole community h5

/-- Witness for C2: a 1-card input yields the insufficient-cards error, and a
5-card input yields a dominating best score. -/
theorem claim_C2_witness :
    (evaluate_hand [('2','c')] [] =
      Except.error ("Need at least 5 cards to evaluate, got " ++
        toString (([('2','c')] : List Card) ++ ([] : List Card)).length)) ∧
    (∃ g, evaluate_hand [('A','h'), ('K','h')] [('Q','h'), ('J','h'), ('T','h')] =
        Except.ok g ∧
      (∃ sub, List.Sublist sub
          (([('A','h'), ('K','h')] : List Card) ++ [('Q','h'), ('J','h'), ('T','h')]) ∧
        sub.length = 5 ∧ g = _evaluate_five sub) ∧
      ∀ sub, List.Sublist sub
          (([('A','h'), ('K','h')] : List Card) ++ [('Q','h'), ('J','h'), ('T','h')]) →
        sub.length = 5 → _compare_single (_evaluate_five sub) g ≤ 0) := by
  constructor
  · have h := claim_C2 [('2','c')] []
    rw [if_pos (by decide)] at h
    exact h
  · have h := claim_C2 [('A','h'), ('K','h')] [('Q','h'), ('J','h'), ('T','h')]
    rw [if_neg (by decide)] at h
    exact h

/-- C5: the wheel A-2-3-4-5 is recognized as a straight with the five as the
high card (`card_rank ('5','h') = 3` in the evaluator's 0-12 rank encoding),
and it compares strictly below a 6-high straight. -/
theorem claim_C5 :
    evaluate_hand [('A','h'), ('2','d')]
        [('3','c'), ('4','s'), ('5','h'), ('9','d'), ('K','d')] =
      Except.ok (HAND_STRAIGHT, [card_rank ('5','h')]) ∧
    _compare_single (HAND_STRAIGHT, [card_rank ('5','h')])
      (HAND_STRAIGHT, [card_rank ('6','h')]) < 0 := by
  constructor
  · rfl
  · decide

/-- C6 counterexample: on `[2c,2d] + [2h,2s,5c,9d,Kd]` the evaluator returns
Four of a Kind with tie-break vector `[rank 2, rank K]` = `[0, 11]` — the best
kicker among {5, 9, K} is the King — which differs from the claimed `[2,5]`
both read as rank indices and read as card values (rank 2 = index 0,
rank 5 = index 3). -/
theorem claim_C6_counterexample :
    evaluate_hand [('2','c'), ('2','d')]
        [('2','h'), ('2','s'), ('5','c'), ('9','d'), ('K','d')] =
      Except.ok (HAND_FOUR_OF_A_KIND, [card_rank ('2','c'), card_rank ('K','d')]) ∧
    [card_rank ('2','c'), card_rank ('K','d')] ≠ [card_rank ('2','c'), card_rank ('5','c')] ∧
    [card_rank ('2','c'), card_rank ('K','d')] ≠ [2, 5] := by
  refine ⟨by rfl, by decide, by decide⟩

/-- C6 amended: `evaluate([2c,2d],[2h,2s,5c,9d,Kd])` returns the Four of a
Kind category with tie-break vector [2, K] (rank indices [0, 11]; the kicker
is the King, not the five), and this result compares strictly above every
Full House under the hand total order. -/
theorem claim_C6 :
    evaluate_hand [('2','c'), ('2','d')]
        [('2','h'), ('2','s'), ('5','c'), ('9','d'), ('K','d')] =
      Except.ok (HAND_FOUR_OF_A_KIND, [card_rank ('2','c'), card_rank ('K','d')]) ∧
    ∀ tb : List Nat,
      _compare_single (HAND_FOUR_OF_A_KIND, [card_rank ('2','c'), card_rank ('K','d')])
        (HAND_FULL_HOUSE, tb) > 0 := by
  constructor
  · rfl
  · intro tb
    simp [_compare_single, HAND_FOUR_OF_A_KIND, HAND_FULL_HOUSE]

/-- C8: evaluation depends only on the set of input cards — for hole/community
splits of the same multiset of cards (2 hole cards, 3-5 community cards),
`evaluate_hand` returns the same (category, tie-break vector). -/
theorem claim_C8 (h1 c1 h2 c2 : List Card)
    (hh1 : h1.length = 2) (hc1a : 3 ≤ c1.length) (hc1b : c1.length ≤ 5)
    (hh2 : h2.length = 2) (hc2a : 3 ≤ c2.length) (hc2b : c2.length ≤ 5)
    (hperm : (h1 ++ c1).Perm (h2 ++ c2)) :
    evaluate_hand h1 c1 = evaluate_hand h2 c2 := by
  have h5a : ¬ (h1 ++ c1).length < 5 := by
    rw [List.length_append]; omega
  have h5b : ¬ (h2 ++ c2).length < 5 := by
    rw [List.length_append]; omega
  rcases evaluate_hand_spec_aux h1 c1 h5a with ⟨g1, hok1, ⟨s1, hs1, hl1, hg1⟩, hmax1⟩
  rcases evaluate_hand_spec_aux h2 c2 h5b with ⟨g2, hok2, ⟨s2, hs2, hl2, hg2⟩, hmax2⟩
  have hw1 : WBScore g1 := hg1 ▸ _evaluate_five_wb hl1
  have hw2 : WBScore g2 := hg2 ▸ _evaluate_five_wb hl2
  rcases hs2.subperm.trans hperm.symm.subperm with ⟨t2, ht2p, ht2s⟩
  have hcmp21 : _compare_single g2 g1 ≤ 0 := by
    have hm := hmax1 t2 ht2s (by rw [ht2p.length_eq, hl2])
    rw [_evaluate_five_perm ht2p, ← hg2] at hm
    exact hm
  rcases hs1.subperm.trans hperm.subperm with ⟨t1, ht1p, ht1s⟩
  have hcmp12 : _compare_single g1 g2 ≤ 0 := by
    have hm := hmax2 t1 ht1s (by rw [ht1p.length_eq, hl1])
    rw [_evaluate_five_perm ht1p, ← hg1] at hm
    exact hm
  have hz : _compare_single g1 g2 = 0 := by
    have := _compare_single_neg g1 g2
    omega
  rw [hok1, hok2, (_compare_single_eq_zero hw1 hw2).mp hz]

/-- Witness for C8 at a concrete permutation of 5 cards. -/
theorem claim_C8_witness :
    evaluate_hand [('A','h'), ('2','d')] [('3','c'), ('4','s'), ('5','h')] =
      evaluate_hand [('2','d'), ('A','h')] [('5','h'), ('3','c'), ('4','s')] :=
  claim_C8 _ _ _ _ (by decide) (by decide) (by decide) (by decide) (by decide)
    (by decide) (by decide)

/-! ### Correctness of `compare_hands` -/

theorem wb_getD {hs : List HandScore} (hwb : ∀ x ∈ hs, WBScore x) {k : Nat}
    (hk : k < hs.length) : WBScore (hs.getD k (0, [])) := by
  apply hwb
  rw [List.getD_eq_getElem hs (0, []) hk]
  exact List.getElem_mem hk

/-- Invariant proof for the linear scan of `compare_hands`: given that `acc`
is exactly the set of indices of the running maximum `best` over the prefix
`hs.take i` and `t = hs.drop i`, the scan returns exactly the indices of the
maxima of the whole list. -/
theorem compareScan_spec (hs : List HandScore) (hwb : ∀ x ∈ hs, WBScore x) :
    ∀ (t : List HandScore) (best : HandScore) (acc : List Nat) (i : Nat),
      hs.drop i = t → 1 ≤ i → i ≤ hs.length →
      (∀ k, k < i → _compare_single (hs.getD k (0, [])) best ≤ 0) →
      (∃ j, j < i ∧ hs.getD j (0, []) = best) →
      (∀ j, j ∈ acc ↔ (j < i ∧ hs.getD j (0, []) = best)) →
      ∀ m, m ∈ compareScan t best acc i ↔
        (m < hs.length ∧ ∀ k, k < hs.length →
          _compare_single (hs.getD k (0, [])) (hs.getD m (0, [])) ≤ 0) := by
  intro t
  induction t with
  | nil =>
      intro best acc i hdrop h1 hlen hdom hocc hacc m
      have hieq : i = hs.length := by
        refine le_antisymm hlen ?_
        by_contra hlt
        push_neg at hlt
        have hd := List.drop_eq_getElem_cons hlt
        rw [hdrop] at hd
        exact List.cons_ne_nil _ _ hd.symm
      subst hieq
      simp only [compareScan]
      constructor
      · intro hm
        rcases (hacc m).mp hm with ⟨hmi, hmb⟩
        refine ⟨hmi, fun k hk => ?_⟩
        rw [hmb]
        exact hdom k hk
      · rintro ⟨hm, hdall⟩
        apply (hacc m).mpr
        refine ⟨hm, ?_⟩
        rcases hocc with ⟨j, hj, hjb⟩
        have hle1 : _compare_single (hs.getD m (0, [])) best ≤ 0 := hdom m hm
        have hle2 : _compare_single best (hs.getD m (0, [])) ≤ 0 := by
          have hd := hdall j hj
          rw [hjb] at hd
          exact hd
        have hz : _compare_single (hs.getD m (0, [])) best = 0 := by
          have := _compare_single_neg (hs.getD m (0, [])) best
          omega
        exact (_compare_single_eq_zero (wb_getD hwb hm) (hjb ▸ wb_getD hwb hj)).mp hz
  | cons h t ih =>
      intro best acc i hdrop h1 hlen hdom hocc hacc m
      have hilt : i < hs.length := by
        by_contra hge
        push_neg at hge
        rw [List.drop_eq_nil_of_le hge] at hdrop
        exact List.cons_ne_nil _ _ hdrop.symm
      have hcons : h :: t = hs.getD i (0, []) :: hs.drop (i + 1) := by
        rw [List.getD_eq_getElem hs (0, []) hilt, ← List.drop_eq_getElem_cons hilt, hdrop]
      have hhead : hs.getD i (0, []) = h := ((List.cons.injEq ..).mp hcons).1.symm
      have htail : hs.drop (i + 1) = t := ((List.cons.injEq ..).mp hcons).2.symm
      have hwbh : WBScore h := hhead ▸ wb_getD hwb hilt
      rcases hocc with ⟨j, hj, hjb⟩
      have hwbbest : WBScore best := hjb ▸ wb_getD hwb (lt_of_lt_of_le hj hlen)
      simp only [compareScan]
      by_cases hpos : _compare_single h best > 0
      · rw [if_pos hpos]
        refine ih h [i] (i + 1) htail (by omega) hilt ?_ ⟨i, by omega, hhead⟩ ?_ m
        · intro k hk
          rcases Nat.lt_succ_iff_lt_or_eq.mp hk with hk' | hk'
          · have hbh : _compare_single best h < 0 := by
              have := _compare_single_neg best h
              omega
            exact _compare_single_trans_le (wb_getD hwb (lt_of_lt_of_le hk' hlen))
              hwbbest hwbh (hdom k hk') (le_of_lt hbh)
          · subst hk'
            rw [hhead]
            simp [_compare_single_self]
        · intro j'
          constructor
          · intro hj'
            have : j' = i := by simpa using hj'
            subst this
            exact ⟨by omega, hhead⟩
          · rintro ⟨hj'i, hj'h⟩
            rcases Nat.lt_succ_iff_lt_or_eq.mp hj'i with hlt' | heq'
            · exfalso
              have hd := hdom j' hlt'
              rw [hj'h] at hd
              omega
            · simp [heq']
      · rw [if_neg hpos]
        by_cases hzero : _compare_single h best = 0
        · rw [if_pos hzero]
          have hhb : h = best := (_compare_single_eq_zero hwbh hwbbest).mp hzero
          refine ih best (acc ++ [i]) (i + 1) htail (by omega) hilt ?_
            ⟨j, by omega, hjb⟩ ?_ m
          · intro k hk
            rcases Nat.lt_succ_iff_lt_or_eq.mp hk with hk' | hk'
            · exact hdom k hk'
            · subst hk'
              rw [hhead]
              omega
          · intro j'
            simp only [List.mem_append, List.mem_singleton]
            constructor
            · rintro (hj' | rfl)
              · rcases (hacc j').mp hj' with ⟨ha, hb⟩
                exact ⟨by omega, hb⟩
              · exact ⟨by omega, by rw [hhead, hhb]⟩
            · rintro ⟨hj'i, hj'b⟩
              rcases Nat.lt_succ_iff_lt_or_eq.mp hj'i with hlt' | heq'
              · exact Or.inl ((hacc j').mpr ⟨hlt', hj'b⟩)
              · exact Or.inr heq'
        · rw [if_neg hzero]
          have hneg : _compare_single h best < 0 := by omega
          refine ih best acc (i + 1) htail (by omega) hilt ?_ ⟨j, by omega, hjb⟩ ?_ m
          · intro k hk
            rcases Nat.lt_succ_iff_lt_or_eq.mp hk with hk' | hk'
            · exact hdom k hk'
            · subst hk'
              rw [hhead]
              omega
          · intro j'
            rw [hacc j']
            constructor
            · rintro ⟨ha, hb⟩
              exact ⟨by omega, hb⟩
            · rintro ⟨hj'i, hj'b⟩
              rcases Nat.lt_succ_iff_lt_or_eq.mp hj'i with hlt' | heq'
              · exact ⟨hlt', hj'b⟩
              · exfalso
                subst heq'
                rw [hj'b] at hhead
                rw [← hhead] at hzero
                exact hzero (_compare_single_self best)

/-- C7: for every non-empty list of evaluated hands, `compare_hands` returns
exactly the set of indices of hands maximal under the total order — every
index whose hand weakly dominates all others is in the result and vice versa;
ties are never broken to a single winner. -/
theorem claim_C7 (hands : List HandScore) (hne : hands ≠ [])
    (hev : ∀ x ∈ hands, ∃ hole community,
      evaluate_hand hole community = Except.ok x) :
    ∀ m, m ∈ compare_hands hands ↔
      (m < hands.length ∧ ∀ k, k < hands.length →
        _compare_single (hands.getD k (0, [])) (hands.getD m (0, [])) ≤ 0) := by
  have hwb : ∀ x ∈ hands, WBScore x := fun x hx => by
    rcases hev x hx with ⟨hole, community, he⟩
    exact evaluate_hand_ok_wb he
  cases hands with
  | nil => exact absurd rfl hne
  | cons h0 t =>
      intro m
      unfold compare_hands
      refine compareScan_spec (h0 :: t) hwb t h0 [0] 1 (by simp) le_rfl (by simp) ?_
        ⟨0, by omega, by simp⟩ ?_ m
      · intro k hk
        have hk0 : k = 0 := by omega
        subst hk0
        simp [_compare_single_self]
      · intro j
        simp only [List.mem_singleton]
        constructor
        · rintro rfl
          exact ⟨by omega, by simp⟩
        · rintro ⟨hj, _⟩
          omega

/-- Witness for C7: three equal evaluated hands — all three indices win. -/
theorem claim_C7_witness :
    (0 ∈ compare_hands [(0, [7, 5, 3, 1, 0]), (0, [7, 5, 3, 1, 0]), (0, [7, 5, 3, 1, 0])]) ∧
    (1 ∈ compare_hands [(0, [7, 5, 3, 1, 0]), (0, [7, 5, 3, 1, 0]), (0, [7, 5, 3, 1, 0])]) ∧
    (2 ∈ compare_hands [(0, [7, 5, 3, 1, 0]), (0, [7, 5, 3, 1, 0]), (0, [7, 5, 3, 1, 0])]) := by
  have h := claim_C7
    [(0, [7, 5, 3, 1, 0]), (0, [7, 5, 3, 1, 0]), (0, [7, 5, 3, 1, 0])]
    (by decide)
    (by
      intro x hx
      refine ⟨[('2','c'), ('3','d')], [('5','h'), ('7','s'), ('9','c')], ?_⟩
      have hx' : x = (0, [7, 5, 3, 1, 0]) := by
        simp only [List.mem_cons, List.not_mem_nil, or_false] at hx
        rcases hx with rfl | rfl | rfl <;> rfl
      rw [hx']
      rfl)
  exact ⟨(h 0).mpr (by decide), (h 1).mpr (by decide), (h 2).mpr (by decide)⟩

/-! ### Poker betting state (tools.py and the hand lifecycle of game.py)

Players are identified by their seat index into `chips`.  `round_bets` is a
list of the same length as `chips` starting at all zeros: the source keeps a
dict read through `.get(pid, 0)`.  `folded_players` and `all_in_players` are
Python sets, modelled as lists extended through `List.insert`. -/

structure HandState where
  chips : List Nat
  pot : Nat
  current_bet : Nat
  min_raise : Nat
  round_bets : List Nat
  folded_players : List Nat
  all_in_players : List Nat
  last_raiser : Option Nat
  deriving Repr, DecidableEq

/-- `bet(amount)` from tools.py: the updated game state plus the recorded
success flag.  A non-positive amount is rejected by the source
(`amount <= 0`); over the `Nat` domain that case is `amount = 0`. -/
def bet (s : HandState) (pid : Nat) (amount : Nat) : HandState × Bool :=
  let cur_bet := s.current_bet
  let my_round_bet := s.round_bets.getD pid 0
  let my_chips := s.chips.getD pid 0
  if cur_bet > my_round_bet then (s, false)
  else if amount = 0 then (s, false)
  else
    let actual := min amount my_chips
    let chips1 := s.chips.set pid (my_chips - actual)
    ({ s with
        chips := chips1,
        round_bets := s.round_bets.set pid (my_round_bet + actual),
        pot := s.pot + actual,
        current_bet := my_round_bet + actual,
        min_raise := (my_round_bet + actual) * 2,
        last_raiser := some pid,
        all_in_players :=
          if chips1.getD pid 0 = 0 then s.all_in_players.insert pid
          else s.all_in_players },
      true)

/-- `call()` from tools.py. -/
def call (s : HandState) (pid : Nat) : HandState × Bool :=
  let cur_bet := s.current_bet
  let my_round_bet := s.round_bets.getD pid 0
  let my_chips := s.chips.getD pid 0
  if cur_bet ≤ my_round_bet then (s, false)   -- to_call <= 0
  else
    let to_call := cur_bet - my_round_bet
    let actual := min to_call my_chips
    let chips1 := s.chips.set pid (my_chips - actual)
    ({ s with
        chips := chips1,
        round_bets := s.round_bets.set pid (my_round_bet + actual),
        pot := s.pot + actual,
        all_in_players :=
          if chips1.getD pid 0 = 0 then s.all_in_players.insert pid
          else s.all_in_players },
      true)

/-- `raise_bet(total_amount)` from tools.py.  `raise_increment` is a Python
int and may be negative (a short all-in "raise" below the current bet), so it
is modelled as `Int`. -/
def raise_bet (s : HandState) (pid : Nat) (total_amount : Nat) : HandState × Bool :=
  let cur_bet := s.current_bet
  let my_round_bet := s.round_bets.getD pid 0
  let my_chips := s.chips.getD pid 0
  if cur_bet = 0 ∧ my_round_bet = 0 then (s, false)
  else if total_amount ≤ cur_bet then (s, false)
  else if total_amount ≤ my_round_bet then (s, false)   -- additional_needed <= 0
  else
    let additional_needed := total_amount - my_round_bet
    if total_amount < s.min_raise ∧ additional_needed < my_chips then (s, false)
    else
      let actual := min additional_needed my_chips
      let new_total := my_round_bet + actual
      let raise_increment : Int := (new_total : Int) - (cur_bet : Int)
      let chips1 := s.chips.set pid (my_chips - actual)
      ({ s with
          chips := chips1,
          round_bets := s.round_bets.set pid new_total,
          pot := s.pot + actual,
          current_bet := new_total,
          min_raise := new_total + (max raise_increment 1).toNat,
          last_raiser := some pid,
          all_in_players :=
            if chips1.getD pid 0 = 0 then s.all_in_players.insert pid
            else s.all_in_players },
        true)

/-- `fold()` from tools.py. -/
def fold (s : HandState) (pid : Nat) : HandState × Bool :=
  ({ s with folded_players := s.folded_players.insert pid }, true)

/-- `check()` from tools.py. -/
def check (s : HandState) (pid : Nat) : HandState × Bool :=
  if s.current_bet > s.round_bets.getD pid 0 then (s, false) else (s, true)

/-- One blind deduction from `_start_hand` (game.py lines 192-206):
`amt = min(blind, chips[pid]); chips[pid] -= amt; pot += amt;
round_bets[pid] = amt`, marking the seat all-in when its stack empties. -/
def post_blind (s : HandState) (pid : Nat) (blind : Nat) : HandState :=
  let amt := min blind (s.chips.getD pid 0)
  let chips1 := s.chips.set pid (s.chips.getD pid 0 - amt)
  { s with
      chips := chips1,
      pot := s.pot + amt,
      round_bets := s.round_bets.set pid amt,
      all_in_players :=
        if chips1.getD pid 0 = 0 then s.all_in_players.insert pid
        else s.all_in_players }

/-- One accepted-or-rejected action inside a hand (a rejected tool call
records a failure and leaves the chip state unchanged). -/
inductive PAction where
  | blind (pid amount : Nat)
  | bet (pid amount : Nat)
  | call (pid : Nat)
  | raiseTo (pid total : Nat)
  | fold (pid : Nat)
  | check (pid : Nat)
  deriving Repr, DecidableEq

def PAction.seat : PAction → Nat
  | .blind p _ => p
  | .bet p _ => p
  | .call p => p
  | .raiseTo p _ => p
  | .fold p => p
  | .check p => p

def applyAction (s : HandState) : PAction → HandState
  | .blind p a => post_blind s p a
  | .bet p a => (bet s p a).1
  | .call p => (call s p).1
  | .raiseTo p t => (raise_bet s p t).1
  | .fold p => (fold s p).1
  | .check p => (check s p).1

def runActions (s : HandState) : List PAction → HandState
  | [] => s
  | a :: rest => runActions (applyAction s a) rest

/-- The pot-splitting loop of `_resolve_hand` (game.py lines 376-382):
`award = split + (1 if remainder > 0 else 0); remainder = max(0, remainder-1);
chips[winner] += award`, in winner order. -/
def distributeAwards : HandState → Nat → Nat → List Nat → HandState
  | s, _, _, [] => s
  | s, split, remainder, w :: ws =>
      let award := split + (if remainder > 0 then 1 else 0)
      distributeAwards
        { s with chips := s.chips.set w (s.chips.getD w 0 + award) }
        split (remainder - 1) ws

/-- `split = pot // len(winners); remainder = pot % len(winners)` followed by
the distribution loop. -/
def resolve_split (s : HandState) (winners : List Nat) : HandState :=
  distributeAwards s (s.pot / winners.length) (s.pot % winners.length) winners

/-- The blind-posting part of `_start_hand` (game.py lines 176-206), starting
from the per-hand reset state (pot 0, empty round bets / folded / all-in). -/
def start_hand_blinds (chips : List Nat) (small_blind big_blind dealer_index : Nat) :
    HandState :=
  let n := chips.length
  let dealer_idx := dealer_index % n
  let sb_idx := if n = 2 then dealer_idx else (dealer_idx + 1) % n
  let bb_idx := if n = 2 then (dealer_idx + 1) % n else (dealer_idx + 2) % n
  let sb_amount := min small_blind (chips.getD sb_idx 0)
  let bb_amount := min big_blind (chips.getD bb_idx 0)
  let chips1 := chips.set sb_idx (chips.getD sb_idx 0 - sb_amount)
  let chips2 := chips1.set bb_idx (chips1.getD bb_idx 0 - bb_amount)
  let round_bets := ((List.replicate n 0).set sb_idx sb_amount).set bb_idx bb_amount
  let allin0 : List Nat := []
  let allin1 := if chips2.getD sb_idx 0 = 0 then allin0.insert sb_idx else allin0
  let allin2 := if chips2.getD bb_idx 0 = 0 then allin1.insert bb_idx else allin1
  { chips := chips2,
    pot := sb_amount + bb_amount,
    current_bet := bb_amount,
    min_raise := bb_amount * 2,
    round_bets := round_bets,
    folded_players := [],
    all_in_players := allin2,
    last_raiser := none }

/-! ### Chip conservation (C1) -/

theorem sum_set_sub :
    ∀ (l : List Nat) (i a : Nat), i < l.length → a ≤ l.getD i 0 →
      (l.set i (l.getD i 0 - a)).sum + a = l.sum := by
  intro l
  induction l with
  | nil => intro i a hi _; simp at hi
  | cons x xs ih =>
      intro i a hi ha
      cases i with
      | zero =>
          simp only [List.getD_cons_zero] at ha
          simp only [List.set_cons_zero, List.sum_cons, List.getD_cons_zero]
          omega
      | succ n =>
          simp only [List.getD_cons_succ] at ha
          simp only [List.set_cons_succ, List.sum_cons, List.getD_cons_succ]
          have h2 := ih n a (by simpa using hi) ha
          omega

theorem sum_set_add :
    ∀ (l : List Nat) (i a : Nat), i < l.length →
      (l.set i (l.getD i 0 + a)).sum = l.sum + a := by
  intro l
  induction l with
  | nil => intro i a hi; simp at hi
  | cons x xs ih =>
      intro i a hi
      cases i with
      | zero =>
          simp only [List.set_cons_zero, List.sum_cons, List.getD_cons_zero]
          omega
      | succ n =>
          simp only [List.set_cons_succ, List.sum_cons, List.getD_cons_succ]
          have h2 := ih n a (by simpa using hi)
          omega

theorem applyAction_chips_length (s : HandState) (a : PAction) :
    (applyAction s a).chips.length = s.chips.length := by
  cases a <;>
    simp only [applyAction, post_blind, bet, call, raise_bet, fold, check] <;>
    (repeat' split_ifs) <;>
    simp [List.length_set]

theorem applyAction_conservation (s : HandState) (a : PAction)
    (h : a.seat < s.chips.length) :
    (applyAction s a).pot + (applyAction s a).chips.sum = s.pot + s.chips.sum := by
  cases a with
  | blind p amt =>
      simp only [PAction.seat] at h
      have hle : min amt (s.chips.getD p 0) ≤ s.chips.getD p 0 := min_le_right _ _
      have hs := sum_set_sub s.chips p (min amt (s.chips.getD p 0)) h hle
      simp only [applyAction, post_blind]
      omega
  | bet p amount =>
      simp only [PAction.seat] at h
      have hle : min amount (s.chips.getD p 0) ≤ s.chips.getD p 0 := min_le_right _ _
      have hs := sum_set_sub s.chips p (min amount (s.chips.getD p 0)) h hle
      simp only [applyAction, bet]
      split_ifs <;> dsimp only <;> omega
  | call p =>
      simp only [PAction.seat] at h
      have hle : min (s.current_bet - s.round_bets.getD p 0) (s.chips.getD p 0)
          ≤ s.chips.getD p 0 := min_le_right _ _
      have hs := sum_set_sub s.chips p
        (min (s.current_bet - s.round_bets.getD p 0) (s.chips.getD p 0)) h hle
      simp only [applyAction, call]
      split_ifs <;> dsimp only <;> omega
  | raiseTo p total =>
      simp only [PAction.seat] at h
      have hle : min (total - s.round_bets.getD p 0) (s.chips.getD p 0)
          ≤ s.chips.getD p 0 := min_le_right _ _
      have hs := sum_set_sub s.chips p
        (min (total - s.round_bets.getD p 0) (s.chips.getD p 0)) h hle
      simp only [applyAction, raise_bet]
      split_ifs <;> dsimp only <;> omega
  | fold p => simp [applyAction, fold]
  | check p =>
      simp only [applyAction, check]
      split_ifs <;> rfl

theorem runActions_conservation :
    ∀ (acts : List PAction) (s : HandState),
      (∀ a ∈ acts, a.seat < s.chips.length) →
      (runActions s acts).pot + (runActions s acts).chips.sum = s.pot + s.chips.sum := by
  intro acts
  induction acts with
  | nil => intro s _; rfl
  | cons a rest ih =>
      intro s h
      have ha := h a (List.mem_cons_self a rest)
      have hrest : ∀ b ∈ rest, b.seat < (applyAction s a).chips.length := by
        intro b hb
        rw [applyAction_chips_length]
        exact h b (List.mem_cons_of_mem a hb)
      have h1 := applyAction_conservation s a ha
      have h2 := ih (applyAction s a) hrest
      simp only [runActions]
      omega

theorem distributeAwards_sum (split : Nat) :
    ∀ (ws : List Nat) (s : HandState) (rem : Nat),
      (∀ w ∈ ws, w < s.chips.length) →
      (distributeAwards s split rem ws).chips.sum
        = s.chips.sum + split * ws.length + min rem ws.length := by
  intro ws
  induction ws with
  | nil => intro s rem _; simp [distributeAwards]
  | cons w ws ih =>
      intro s rem h
      have hw := h w (List.mem_cons_self w ws)
      have hset := sum_set_add s.chips w (split + (if rem > 0 then 1 else 0)) hw
      have hseats : ∀ x ∈ ws,
          x < (s.chips.set w
            (s.chips.getD w 0 + (split + (if rem > 0 then 1 else 0)))).length := by
        intro x hx
        rw [List.length_set]
        exact h x (List.mem_cons_of_mem w hx)
      have hrec := ih
        ({ s with
            chips := s.chips.set w
              (s.chips.getD w 0 + (split + (if rem > 0 then 1 else 0))) })
        (rem - 1) hseats
      simp only [distributeAwards]
      rw [hrec]
      dsimp only
      rw [hset]
      simp only [List.length_cons, Nat.mul_succ]
      by_cases hrem : rem > 0 <;>
        simp only [hrem, if_true, if_false] <;> omega

/-- C1: pot conservation within one hand.  For every sequence of
blind/bet/call/raise/fold/check actions processed from a fresh-hand state
(pot 0), the pot always equals the total chips deducted from the seats
(`pot + current chip total = starting chip total`), and the resolution
split — even share plus one-chip remainder distribution starting from the
first winner — pays back exactly the pot: no chips are created or lost. -/
theorem claim_C1 (s0 : HandState) (acts : List PAction)
    (hpot : s0.pot = 0)
    (hseats : ∀ a ∈ acts, a.seat < s0.chips.length) :
    (runActions s0 acts).pot + (runActions s0 acts).chips.sum = s0.chips.sum ∧
    (∀ winners : List Nat, winners ≠ [] →
      (∀ w ∈ winners, w < (runActions s0 acts).chips.length) →
      (resolve_split (runActions s0 acts) winners).chips.sum
        = (runActions s0 acts).chips.sum + (runActions s0 acts).pot) := by
  constructor
  · have := runActions_conservation acts s0 hseats
    omega
  · intro winners hne hw
    unfold resolve_split
    rw [distributeAwards_sum _ winners (runActions s0 acts)
      ((runActions s0 acts).pot % winners.length) hw]
    have hk : 0 < winners.length := List.length_pos.mpr hne
    have hmod : (runActions s0 acts).pot % winners.length < winners.length :=
      Nat.mod_lt _ hk
    rw [min_eq_left (le_of_lt hmod)]
    have hdm : (runActions s0 acts).pot / winners.length * winners.length +
        (runActions s0 acts).pot % winners.length = (runActions s0 acts).pot := by
      rw [Nat.mul_comm]
      exact Nat.div_add_mod _ _
    linarith

/-- Witness for C1: heads-up blinds 10/20, a raise to 40 and a call; the pot
is 80, both stacks are down to 60, and a split pays the 80 back. -/
theorem claim_C1_witness :
    ((runActions ⟨[100, 100], 0, 0, 40, [0, 0], [], [], none⟩
        [PAction.blind 0 10, PAction.blind 1 20,
         PAction.raiseTo 0 40, PAction.call 1]).pot +
      (runActions ⟨[100, 100], 0, 0, 40, [0, 0], [], [], none⟩
        [PAction.blind 0 10, PAction.blind 1 20,
         PAction.raiseTo 0 40, PAction.call 1]).chips.sum =
      ([100, 100] : List Nat).sum) ∧
    (resolve_split (runActions ⟨[100, 100], 0, 0, 40, [0, 0], [], [], none⟩
        [PAction.blind 0 10, PAction.blind 1 20,
         PAction.raiseTo 0 40, PAction.call 1]) [0, 1]).chips.sum =
      (runActions ⟨[100, 100], 0, 0, 40, [0, 0], [], [], none⟩
        [PAction.blind 0 10, PAction.blind 1 20,
         PAction.raiseTo 0 40, PAction.call 1]).chips.sum +
      (runActions ⟨[100, 100], 0, 0, 40, [0, 0], [], [], none⟩
        [PAction.blind 0 10, PAction.blind 1 20,
         PAction.raiseTo 0 40, PAction.call 1]).pot := by
  have h := claim_C1 ⟨[100, 100], 0, 0, 40, [0, 0], [], [], none⟩
    [PAction.blind 0 10, PAction.blind 1 20, PAction.raiseTo 0 40, PAction.call 1]
    rfl (by decide)
  exact ⟨h.1, h.2 [0, 1] (by decide) (by decide)⟩

/-- C3: legality of `raise_bet` when a bet is outstanding.  (a) a total at
most `current_bet` is rejected; (b) a total below `min_raise` is rejected
when the additional amount required is below the raiser's stack, and
accepted when the raiser's stack is at most the additional amount required
(all-in exception); (c) every accepted raise sets `current_bet` to the new
round total and `min_raise` to `new_total + max(raise_increment, 1)`, where
`raise_increment = new_total - previous current_bet` over the integers. -/
theorem claim_C3 (s : HandState) (pid total : Nat) (hout : 0 < s.current_bet) :
    (total ≤ s.current_bet → raise_bet s pid total = (s, false)) ∧
    (total < s.min_raise → total - s.round_bets.getD pid 0 < s.chips.getD pid 0 →
      (raise_bet s pid total).2 = false) ∧
    (s.round_bets.getD pid 0 ≤ s.current_bet → s.current_bet < total →
      s.chips.getD pid 0 ≤ total - s.round_bets.getD pid 0 →
      (raise_bet s pid total).2 = true) ∧
    ((raise_bet s pid total).2 = true →
      (raise_bet s pid total).1.current_bet
          = s.round_bets.getD pid 0 +
            min (total - s.round_bets.getD pid 0) (s.chips.getD pid 0) ∧
      ((raise_bet s pid total).1.min_raise : Int)
          = ((raise_bet s pid total).1.current_bet : Int) +
            max (((raise_bet s pid total).1.current_bet : Int) - (s.current_bet : Int)) 1) := by
  refine ⟨?_, ?_, ?_, ?_⟩
  · intro hle
    simp only [raise_bet]
    rw [if_neg (by omega : ¬ (s.current_bet = 0 ∧ s.round_bets.getD pid 0 = 0)),
      if_pos hle]
  · intro hmin hadd
    simp only [raise_bet]
    rw [if_neg (by omega : ¬ (s.current_bet = 0 ∧ s.round_bets.getD pid 0 = 0))]
    by_cases h2 : total ≤ s.current_bet
    · rw [if_pos h2]
    · rw [if_neg h2]
      by_cases h3 : total ≤ s.round_bets.getD pid 0
      · rw [if_pos h3]
      · rw [if_neg h3, if_pos ⟨hmin, hadd⟩]
  · intro hrb hlt hall
    simp only [raise_bet]
    rw [if_neg (by omega : ¬ (s.current_bet = 0 ∧ s.round_bets.getD pid 0 = 0)),
      if_neg (by omega : ¬ total ≤ s.current_bet),
      if_neg (by omega : ¬ total ≤ s.round_bets.getD pid 0),
      if_neg (by omega :
        ¬ (total < s.min_raise ∧ total - s.round_bets.getD pid 0 < s.chips.getD pid 0))]
  · intro hsucc
    simp only [raise_bet] at hsucc ⊢
    by_cases h1 : s.current_bet = 0 ∧ s.round_bets.getD pid 0 = 0
    · rw [if_pos h1] at hsucc
      simp at hsucc
    · rw [if_neg h1] at hsucc ⊢
      by_cases h2 : total ≤ s.current_bet
      · rw [if_pos h2] at hsucc
        simp at hsucc
      · rw [if_neg h2] at hsucc ⊢
        by_cases h3 : total ≤ s.round_bets.getD pid 0
        · rw [if_pos h3] at hsucc
          simp at hsucc
        · rw [if_neg h3] at hsucc ⊢
          by_cases h4 : total < s.min_raise ∧
              total - s.round_bets.getD pid 0 < s.chips.getD pid 0
          · rw [if_pos h4] at hsucc
            simp at hsucc
          · rw [if_neg h4]
            dsimp only
            refine ⟨rfl, ?_⟩
            have h5 : (0 : Int) ≤
                max ((((s.round_bets.getD pid 0 +
                  min (total - s.round_bets.getD pid 0) (s.chips.getD pid 0)) : Nat) : Int) -
                  (s.current_bet : Int)) 1 :=
              le_trans (by norm_num) (le_max_right _ _)
            rw [Nat.cast_add, Int.toNat_of_nonneg h5]

/-- Witness for C3: at chips 100, current bet 20, own round bet 10,
min raise 40 — a raise to 15 is rejected, a raise to 30 is rejected
(below the minimum, not all-in), a raise to 120 is accepted (all-in
exception), and an accepted raise to 50 sets current bet 50 and min
raise 80. -/
theorem claim_C3_witness :
    raise_bet ⟨[100, 80], 30, 20, 40, [10, 20], [], [], none⟩ 0 15 =
      (⟨[100, 80], 30, 20, 40, [10, 20], [], [], none⟩, false) ∧
    (raise_bet ⟨[100, 80], 30, 20, 40, [10, 20], [], [], none⟩ 0 30).2 = false ∧
    (raise_bet ⟨[100, 80], 30, 20, 40, [10, 20], [], [], none⟩ 0 120).2 = true ∧
    ((raise_bet ⟨[100, 80], 30, 20, 40, [10, 20], [], [], none⟩ 0 50).1.current_bet
        = 10 + min (50 - 10) 100 ∧
      ((raise_bet ⟨[100, 80], 30, 20, 40, [10, 20], [], [], none⟩ 0 50).1.min_raise : Int)
        = ((raise_bet ⟨[100, 80], 30, 20, 40, [10, 20], [], [], none⟩ 0 50).1.current_bet : Int) +
          max (((raise_bet ⟨[100, 80], 30, 20, 40, [10, 20], [], [], none⟩ 0 50).1.current_bet : Int) - (20 : Int)) 1) := by
  refine ⟨?_, ?_, ?_, ?_⟩
  · exact (claim_C3 ⟨[100, 80], 30, 20, 40, [10, 20], [], [], none⟩ 0 15 (by decide)).1
      (by decide)
  · exact (claim_C3 ⟨[100, 80], 30, 20, 40, [10, 20], [], [], none⟩ 0 30 (by decide)).2.1
      (by decide) (by decide)
  · exact (claim_C3 ⟨[100, 80], 30, 20, 40, [10, 20], [], [], none⟩ 0 120 (by decide)).2.2.1
      (by decide) (by decide) (by decide)
  · exact (claim_C3 ⟨[100, 80], 30, 20, 40, [10, 20], [], [], none⟩ 0 50 (by decide)).2.2.2
      (by decide)

/-- C4 counterexample: with 2 seats, small blind 10, big blind 20 but only 5
chips on the big-blind seat, `_start_hand` sets `current_bet` to the posted
(clamped) amount 5 — not to the configured big blind 20 — and `min_raise`
to 10, not 40.  The claim "after startHand, currentBet equals the big blind
and minRaise equals double the big blind" fails on this state. -/
theorem claim_C4_counterexample :
    ¬ ((start_hand_blinds [100, 5] 10 20 0).current_bet = 20 ∧
       (start_hand_blinds [100, 5] 10 20 0).min_raise = 2 * 20) := by decide

/-- C4 amended: for a heads-up `_start_hand` the dealer's seat is charged the
small blind and the other seat the big blind, each clamped to the seat's
available chips and the seat marked all-in exactly when its stack empties;
`current_bet` becomes the posted (clamped) big-blind amount and `min_raise`
twice that posted amount. -/
theorem claim_C4 (c0 c1 sb bb d : Nat) :
    (start_hand_blinds [c0, c1] sb bb d).chips.getD (d % 2) 0
        = [c0, c1].getD (d % 2) 0 - min sb ([c0, c1].getD (d % 2) 0) ∧
    (start_hand_blinds [c0, c1] sb bb d).chips.getD ((d % 2 + 1) % 2) 0
        = [c0, c1].getD ((d % 2 + 1) % 2) 0 - min bb ([c0, c1].getD ((d % 2 + 1) % 2) 0) ∧
    (start_hand_blinds [c0, c1] sb bb d).round_bets.getD (d % 2) 0
        = min sb ([c0, c1].getD (d % 2) 0) ∧
    (start_hand_blinds [c0, c1] sb bb d).round_bets.getD ((d % 2 + 1) % 2) 0
        = min bb ([c0, c1].getD ((d % 2 + 1) % 2) 0) ∧
    (start_hand_blinds [c0, c1] sb bb d).pot
        = min sb ([c0, c1].getD (d % 2) 0) + min bb ([c0, c1].getD ((d % 2 + 1) % 2) 0) ∧
    (start_hand_blinds [c0, c1] sb bb d).current_bet
        = min bb ([c0, c1].getD ((d % 2 + 1) % 2) 0) ∧
    (start_hand_blinds [c0, c1] sb bb d).min_raise
        = min bb ([c0, c1].getD ((d % 2 + 1) % 2) 0) * 2 ∧
    ((d % 2) ∈ (start_hand_blinds [c0, c1] sb bb d).all_in_players ↔
      [c0, c1].getD (d % 2) 0 - min sb ([c0, c1].getD (d % 2) 0) = 0) ∧
    (((d % 2 + 1) % 2) ∈ (start_hand_blinds [c0, c1] sb bb d).all_in_players ↔
      [c0, c1].getD ((d % 2 + 1) % 2) 0 - min bb ([c0, c1].getD ((d % 2 + 1) % 2) 0) = 0) := by
  rcases Nat.mod_two_eq_zero_or_one d with hd | hd <;>
    simp only [start_hand_blinds, hd, List.length_cons, List.length_nil] <;>
    norm_num <;>
    split_ifs <;>
    simp_all [List.getD, List.insert]

/-! ### `PokerGame.process_action` (game.py lines 528-578, C10)

Players are identified by their id strings; `_player_name` falls back to the
player id when the player lookup fails, which is the name used in the
history lines here. -/

structure LastAct where
  name : String
  result : String
  success : Bool
  deriving Repr, DecidableEq

/-- The fields of `ActionResult` relevant to the poker action path. -/
structure ARes where
  player_id : String
  action_name : String
  result : String
  success : Bool
  deriving Repr, DecidableEq

structure TurnState where
  lastAction : Option LastAct
  seats : List String            -- _active_seat_ids()
  folded_players : List String
  all_in_players : List String
  acted_this_round : List String
  action_queue : List String
  hand_history : List String
  deriving Repr, DecidableEq

/-- `_reopen_betting(raiser_id)`: requeue every other active seat, in seat
order starting right after the raiser, skipping folded and all-in seats.
An unknown raiser (ValueError in the source) leaves the state unchanged. -/
def _reopen_betting (s : TurnState) (raiser_id : String) : TurnState :=
  let seats := s.seats
  let n := seats.length
  match seats.indexOf? raiser_id with
  | none => s
  | some raiser_idx =>
      let order := ((List.range (n - 1)).map
          fun i => seats.getD ((raiser_idx + i + 1) % n) "").filter
        fun pid => !(s.folded_players.contains pid) && !(s.all_in_players.contains pid)
      { s with action_queue := order }

/-- `process_action(player_id, ...)`: when no tool call was recorded
(`last_action is None`) the player is force-folded with a successful "fold"
result; otherwise the recorded action is logged, successful bets/raises
reopen betting, and `last_action` is cleared. -/
def process_action (s : TurnState) (player_id : String) : TurnState × ARes :=
  match s.lastAction with
  | none =>
      ({ s with
          folded_players := s.folded_players.insert player_id,
          acted_this_round := s.acted_this_round.insert player_id,
          hand_history := s.hand_history ++
            ["  " ++ player_id ++ ": fold (no valid action taken, auto-folded)"] },
        { player_id := player_id, action_name := "fold",
          result := "No valid action was taken. Folded by default.",
          success := true })
  | some last =>
      let s1 :=
        if last.success then
          let s2 := { s with
            hand_history := s.hand_history ++
              ["  " ++ player_id ++ ": " ++ last.name ++ " - " ++ last.result],
            acted_this_round := s.acted_this_round.insert player_id }
          if last.name = "bet" ∨ last.name = "raise_bet" then
            _reopen_betting s2 player_id
          else s2
        else
          { s with hand_history := s.hand_history ++
              ["  " ++ player_id ++ ": " ++ last.name ++ " (invalid) - " ++ last.result] }
      ({ s1 with lastAction := none },
        { player_id := player_id, action_name := last.name,
          result := last.result, success := last.success })

/-- C10: when no tool action was recorded for the turn, the player is
automatically folded and the returned ActionResult is a successful "fold" —
a missing decision becomes a successful fold, not a failure or an error. -/
theorem claim_C10 (s : TurnState) (pid : String) (hnone : s.lastAction = none) :
    (process_action s pid).2.action_name = "fold" ∧
    (process_action s pid).2.success = true ∧
    pid ∈ (process_action s pid).1.folded_players := by
  refine ⟨?_, ?_, ?_⟩
  · simp [process_action, hnone]
  · simp [process_action, hnone]
  · simp only [process_action, hnone]
    exact List.mem_insert_self pid s.folded_players

/-- Witness for C10 at a concrete two-seat state with no recorded action. -/
theorem claim_C10_witness :
    (process_action ⟨none, ["p1", "p2"], [], [], [], [], []⟩ "p1").2.action_name = "fold" ∧
    (process_action ⟨none, ["p1", "p2"], [], [], [], [], []⟩ "p1").2.success = true ∧
    "p1" ∈ (process_action ⟨none, ["p1", "p2"], [], [], [], [], []⟩ "p1").1.folded_players :=
  claim_C10 ⟨none, ["p1", "p2"], [], [], [], [], []⟩ "p1" rfl

/-! ### The orchestrator loop `BaseGame.run` (core/game.py lines 83-136, C9) -/

/-- The fields of `GameOutcome` relevant to the loop: winners, losers and
the metadata map. -/
structure GameOutcome where
  winner_ids : List String
  loser_ids : List String
  metadata : List (String × String)
  deriving Repr, DecidableEq

/-- One iteration of the while-loop as observed by `run`: whether
`get_next_phase()` returned a GAME_OVER phase, the success flags of the
`ActionResult`s appended to the action log during the phase, and what
`check_game_over()` returns after the iteration. -/
structure PhaseStep where
  is_game_over : Bool
  successes : List Bool
  outcome : Option GameOutcome
  deriving Repr, DecidableEq

/-- The post-loop tail of `run`: use the game's outcome if it reports one,
otherwise synthesize the aborted draw. -/
def finishOutcome : Option GameOutcome → GameOutcome
  | some oc => oc
  | none =>
      { winner_ids := [], loser_ids := [],
        metadata := [("termination", "aborted")] }

/-- The while-loop of `BaseGame.run` over a trace of phase iterations.
`final` is what `check_game_over()` returns after the loop breaks;
`counter` is `consecutive_no_progress`; `has_progress` is `new_count >
prev_action_count and any(a.success ...)`, i.e. some appended action result
succeeded.  MAX_CONSECUTIVE_FAILURES = 5.  A trace that ends without
termination yields `none` (the loop would keep running). -/
def runLoop (final : Option GameOutcome) : Nat → List PhaseStep → Option GameOutcome
  | _, [] => none
  | counter, step :: rest =>
      if step.is_game_over then some (finishOutcome final)
      else
        let counter1 := if step.successes.any id then 0 else counter + 1
        if 5 ≤ counter1 then some (finishOutcome final)
        else
          match step.outcome with
          | some oc => some oc
          | none => runLoop final counter1 rest

/-- C9: five consecutive phase iterations with zero successful actions abort
the loop; when the game reports no outcome the run emits a draw GameOutcome
with empty winner and loser lists and metadata termination "aborted" — an
outcome, never a fatal error. -/
theorem claim_C9 (s1 s2 s3 s4 s5 : PhaseStep) (rest : List PhaseStep)
    (hg1 : s1.is_game_over = false) (hg2 : s2.is_game_over = false)
    (hg3 : s3.is_game_over = false) (hg4 : s4.is_game_over = false)
    (hg5 : s5.is_game_over = false)
    (ha1 : s1.successes.any id = false) (ha2 : s2.successes.any id = false)
    (ha3 : s3.successes.any id = false) (ha4 : s4.successes.any id = false)
    (ha5 : s5.successes.any id = false)
    (ho1 : s1.outcome = none) (ho2 : s2.outcome = none)
    (ho3 : s3.outcome = none) (ho4 : s4.outcome = none) :
    runLoop none 0 (s1 :: s2 :: s3 :: s4 :: s5 :: rest) =
      some { winner_ids := [], loser_ids := [],
             metadata := [("termination", "aborted")] } := by
  simp [runLoop, hg1, hg2, hg3, hg4, hg5, ha1, ha2, ha3, ha4, ha5,
    ho1, ho2, ho3, ho4, finishOutcome]

/-- Witness for C9: five stalled iterations (one failed action each). -/
theorem claim_C9_witness :
    runLoop none 0 [⟨false, [false], none⟩, ⟨false, [false], none⟩,
      ⟨false, [false], none⟩, ⟨false, [false], none⟩, ⟨false, [false], none⟩] =
      some { winner_ids := [], loser_ids := [],
             metadata := [("termination", "aborted")] } :=
  claim_C9 _ _ _ _ _ [] rfl rfl rfl rfl rfl rfl rfl rfl rfl rfl rfl rfl rfl rfl

end LLMArena
